import Mathlib

/-!
Verification development for the movie_translator subtitle pipeline.

Shallow embedding of the Python sources:
  * `movie_translator/translation/enhancements.py`
  * `movie_translator/translation/translator.py`
  * `movie_translator/subtitles/processor.py` (`_deduplicate_events`, `_filter_dialogue`)
  * `movie_translator/subtitles/validator.py`
  * `movie_translator/subtitles/extractor.py` (track selection)
  * `movie_translator/types.py` / `movie_translator/subtitles/writer.py` (Polish chars)

Python strings are embedded as `List Char` (`Str`).  Python string methods
(`strip`, `lower`, `upper`, `isupper`, `in`, `translate`, `replace`) are
implemented below over `Str`; the `str.strip`/`\s` whitespace set and the
case maps are the ASCII ones (plus the Polish diacritics that occur in the
phrase tables), which covers every character the embedded code paths touch.

The external neural translation backend (`_encode_texts` / `_generate_translations`
/ `_decode_outputs` in `translator.py`) is abstracted as a function
`List Str → Except String (List Str)`: `.error` models a raised exception,
mirroring the spec's external-interface contract for the backend.  Python
exceptions in the embedded code itself (`zip(..., strict=True)`,
`range(..., 0)`) are likewise modelled with `Except`.  Logging calls,
`PreprocessingStats` counters (write-only diagnostics, never read for
control flow) and memory-management calls (`gc`, `torch` cache clearing)
are omitted; they do not influence any returned value.
-/

/-- Python `str`, embedded as a list of characters. -/
abbrev Str := List Char

/-- Coerce a Lean string literal into the embedding. -/
def S (s : String) : Str := s.data

/-- Python whitespace for `str.strip` / regex `\s` (ASCII part). -/
def pyIsSpace (c : Char) : Bool := [' ', '\t', '\n', '\r', '\x0b', '\x0c'].contains c

/-- Python `str.strip()` with no arguments: drop leading and trailing whitespace. -/
def pyStrip (l : Str) : Str :=
  ((l.dropWhile pyIsSpace).reverse.dropWhile pyIsSpace).reverse

/-- Uppercase → lowercase pairs for the Polish diacritics used by the phrase tables. -/
def polishLowerPairs : List (Char × Char) :=
  [('Ą', 'ą'), ('Ć', 'ć'), ('Ę', 'ę'), ('Ł', 'ł'), ('Ń', 'ń'),
   ('Ó', 'ó'), ('Ś', 'ś'), ('Ź', 'ź'), ('Ż', 'ż')]

/-- Python `str.lower` on one character (ASCII plus the Polish diacritics). -/
def pyToLower (c : Char) : Char :=
  match polishLowerPairs.lookup c with
  | some l => l
  | none => c.toLower

/-- Python `str.upper` on one character (ASCII plus the Polish diacritics). -/
def pyToUpper (c : Char) : Char :=
  match (polishLowerPairs.map (fun p => (p.2, p.1))).lookup c with
  | some u => u
  | none => c.toUpper

/-- Python `str.lower()`. -/
def toLowerStr (l : Str) : Str := l.map pyToLower

/-- Python `str.upper()`. -/
def toUpperStr (l : Str) : Str := l.map pyToUpper

/-- Cased character (ASCII approximation used by the `isupper` embedding). -/
def isCased (c : Char) : Bool := c.isAlpha

/-- Python `str.isupper()`: at least one cased character and no lowercase cased one. -/
def pyIsUpper (l : Str) : Bool :=
  l.any isCased && l.all (fun c => !isCased c || c.isUpper)

/-- Regex `\w` (ASCII approximation): letters, digits, underscore. -/
def isWordChar (c : Char) : Bool := c.isAlphanum || c == '_'

/-- Case-insensitive equality of strings (how `re.IGNORECASE` compares a backreference). -/
def ciEq (a b : Str) : Bool := toLowerStr a == toLowerStr b

/-- Python `needle in hay` for strings: contiguous substring test. -/
def strContains (hay needle : Str) : Bool :=
  hay.tails.any (fun t => needle.isPrefixOf t)

/-!  ### `movie_translator/translation/enhancements.py`  -/

/-- `PHRASE_BASE_MAP` (a Python dict literal, embedded as an association list). -/
def PHRASE_BASE_MAP : List (Str × Str) :=
  [(S ("yes"), S ("tak")), (S ("no"), S ("nie")), (S ("maybe"), S ("może")),
   (S ("wait"), S ("czekaj")), (S ("stop"), S ("stop")), (S ("go"), S ("idź")),
   (S ("help"), S ("pomocy")), (S ("please"), S ("proszę")), (S ("thanks"), S ("dzięki")),
   (S ("sorry"), S ("przepraszam")), (S ("okay"), S ("dobrze")), (S ("ok"), S ("ok")),
   (S ("fine"), S ("dobrze")), (S ("sure"), S ("jasne")), (S ("never"), S ("nigdy")),
   (S ("always"), S ("zawsze")), (S ("hello"), S ("cześć")), (S ("hi"), S ("cześć")),
   (S ("bye"), S ("pa")), (S ("goodbye"), S ("do widzenia"))]

/-- `MULTI_WORD_PHRASES`. -/
def MULTI_WORD_PHRASES : List (Str × Str) :=
  [(S ("thank you"), S ("dziękuję")), (S ("i see"), S ("rozumiem")),
   (S ("i know"), S ("wiem")), (S ("of course"), S ("oczywiście")),
   (S ("excuse me"), S ("przepraszam")), (S ("good luck"), S ("powodzenia"))]

/-- `IDIOM_PATTERNS`: each regex is `\b<literal phrase>\b` with `re.IGNORECASE`;
the pairs store the literal phrase and its replacement. -/
def IDIOM_PATTERNS : List (Str × Str) :=
  [(S ("break a leg"), S ("good luck")),
   (S ("raining cats and dogs"), S ("raining heavily")),
   (S ("piece of cake"), S ("very easy")),
   (S ("hit the nail on the head"), S ("exactly right")),
   (S ("let the cat out of the bag"), S ("reveal a secret")),
   (S ("once in a blue moon"), S ("very rarely")),
   (S ("under the weather"), S ("feeling sick")),
   (S ("spill the beans"), S ("reveal a secret")),
   (S ("barking up the wrong tree"), S ("looking in the wrong place")),
   (S ("cost an arm and a leg"), S ("very expensive"))]

/-- Case-insensitive "pattern is a prefix of s" (patterns are stored lowercase). -/
def ciPrefixMatch : Str → Str → Bool
  | [], _ => true
  | _ :: _, [] => false
  | p :: ps, c :: cs => (pyToLower c == p) && ciPrefixMatch ps cs

/-- After a candidate match of `pat` at the head of `s`, does the `\b` at the
pattern's end hold (end of string, or a non-word character follows)? -/
def wordBoundaryAfter (pat s : Str) : Bool :=
  match s.drop pat.length with
  | [] => true
  | c :: _ => !isWordChar c

/-- The last character of the matched region (used to carry the `\b` context
past a replacement; the scan resumes after the matched region of the
original string). -/
def lastOfMatch (pat s : Str) : Char := (s.take pat.length).getLastD ' '

/-- One `re.sub(r'\b<pat>\b', rep, s, flags=IGNORECASE)` scan: left-to-right,
non-overlapping, continuing after each replaced region.  `prevWord` records
whether the previous character of the original string is a word character
(the `\b` before the pattern requires it not to be).  `fuel` only makes the
recursion structural; it is seeded with `s.length + 1`, enough for the whole
scan since every step consumes at least one character (the patterns are
non-empty). -/
def subPatternGo (pat rep : Str) : Nat → Bool → Str → Str
  | 0, _, s => s
  | _ + 1, _, [] => []
  | fuel + 1, prevWord, c :: rest =>
    if !prevWord && ciPrefixMatch pat (c :: rest) && wordBoundaryAfter pat (c :: rest) then
      rep ++ subPatternGo pat rep fuel (isWordChar (lastOfMatch pat (c :: rest)))
        (List.drop pat.length (c :: rest))
    else
      c :: subPatternGo pat rep fuel (isWordChar c) rest

/-- `re.sub` for one idiom pattern. -/
def subPattern (pat rep s : Str) : Str :=
  subPatternGo pat rep (s.length + 1) false s

/-- The idiom-substitution loop of `preprocess_for_translation` (the
`idiom_matched` flag only feeds the statistics and is omitted). -/
def applyIdioms (text : Str) : Str :=
  IDIOM_PATTERNS.foldl (fun acc pr => subPattern pr.1 pr.2 acc) text

/-- The trailing-punctuation class `[.!?,;:…]` of `normalize_for_lookup`. -/
def PUNCT_CLASS : List Char := ['.', '!', '?', ',', ';', ':', '…']

/-- The capitalization pattern of `normalize_for_lookup`. -/
def capPattern (base : Str) : Str :=
  if pyIsUpper base then S ("UPPER")
  else
    match base with
    | c :: _ => if c.isUpper then S ("Title") else S ("lower")
    | [] => S ("lower")

/-- `normalize_for_lookup`: split the stripped text into a lowercase base, a
trailing punctuation run, and a capitalization pattern.

The regex `^(.*?)([.!?,;:…]+)?$` is applied to `stripped = text.strip()`.
`stripped` has no trailing newline, so `$` can only match at the very end;
a lazy `(.*?)` cannot cross a newline, hence the regex fails to match
exactly when `stripped` contains an (interior) newline, in which case the
code falls back to `base = stripped, punct = ''`.  When it matches, the
lazy group makes `group(2)` the maximal trailing run of class characters
and `group(1)` the rest (then re-stripped). -/
def normalizeForLookup (text : Str) : Str × Str × Str :=
  let stripped := pyStrip text
  if stripped.contains '\n' then
    (toLowerStr stripped, [], capPattern stripped)
  else
    let punct := (stripped.reverse.takeWhile (fun c => PUNCT_CLASS.contains c)).reverse
    let base := pyStrip (stripped.take (stripped.length - punct.length))
    (toLowerStr base, punct, capPattern base)

/-- `apply_formatting`: re-apply the capitalization pattern and the trailing
punctuation to a table translation. -/
def applyFormatting (translated punct cap : Str) : Str :=
  let result :=
    if cap == S ("UPPER") then toUpperStr translated
    else if cap == S ("Title") && !translated.isEmpty then
      match translated with
      | c :: rest => if rest.length > 0 then pyToUpper c :: rest else toUpperStr translated
      | [] => translated
    else translated
  result ++ punct

/-- `preprocess_for_translation` (the `stats` parameter is write-only and omitted):
returns the processed text and whether it was resolved by a phrase table. -/
def preprocessForTranslation (text : Str) : Str × Bool :=
  let npc := normalizeForLookup text
  match PHRASE_BASE_MAP.lookup npc.1 with
  | some translated => (applyFormatting translated npc.2.1 npc.2.2, true)
  | none =>
    match MULTI_WORD_PHRASES.lookup npc.1 with
    | some translated => (applyFormatting translated npc.2.1 npc.2.2, true)
    | none => (applyIdioms text, false)

/-- Spec view of the phrase-table path of `preprocess_for_translation`: the
formatted table translation when the lowercase base text is a table entry. -/
def tableTranslation (text : Str) : Option Str :=
  let npc := normalizeForLookup text
  match PHRASE_BASE_MAP.lookup npc.1 with
  | some translated => some (applyFormatting translated npc.2.1 npc.2.2)
  | none =>
    match MULTI_WORD_PHRASES.lookup npc.1 with
    | some translated => some (applyFormatting translated npc.2.1 npc.2.2)
    | none => none

/-- Leading-whitespace count (how far a greedy `\s*` can reach). -/
def wsCount (l : Str) : Nat := (l.takeWhile pyIsSpace).length

/-- `n, n-1, ..., 0`: the order in which a greedy `\s*` tries its lengths. -/
def descRange (n : Nat) : List Nat := (List.range (n + 1)).reverse

/-- Python `$`: end of string, or just before a single final newline. -/
def matchAtEnd (r : Str) : Bool := r == [] || r == ['\n']

/-- Match the tail `\s*X\s*-\s*\1\s*X$` of the `_remove_dialogue_markers`
patterns after the group `g` has been chosen (`X` ranges over `cls`, and
`\1` compares case-insensitively under `re.IGNORECASE`).  Each `\s*` is
tried greedily, longest first. -/
def matchDlgTail (cls : List Char) (g r : Str) : Bool :=
  (descRange (wsCount r)).any (fun n2 =>
    match r.drop n2 with
    | x :: r2 =>
      cls.contains x &&
      (descRange (wsCount r2)).any (fun n3 =>
        match r2.drop n3 with
        | '-' :: r4 =>
          (descRange (wsCount r4)).any (fun n4 =>
            let r5 := r4.drop n4
            decide (g.length ≤ r5.length) && ciEq (r5.take g.length) g &&
            (descRange (wsCount (r5.drop g.length))).any (fun n5 =>
              match (r5.drop g.length).drop n5 with
              | y :: r7 => cls.contains y && matchAtEnd r7
              | [] => false))
        | _ => false)
    | [] => false)

/-- Match `^-\s*([^-]+?)\s*X\s*-\s*\1\s*X$` against `t` and return `group(1)`.
Backtracking order of the regex engine: the leading `\s*` is greedy
(longest first, backtracked last), the lazy group `([^-]+?)` grows from
length 1 upward.  `[^-]` admits any character except `-` (including
newlines and spaces). -/
def matchDlgGroup (cls : List Char) (t : Str) : Option Str :=
  match t with
  | '-' :: rest =>
    (descRange (wsCount rest)).findSome? (fun n1 =>
      let afterWs := rest.drop n1
      (List.range afterWs.length).findSome? (fun k0 =>
        let k := k0 + 1
        let g := afterWs.take k
        if g.length == k && !g.contains '-' && matchDlgTail cls g (afterWs.drop k) then
          some g
        else none))
  | _ => none

/-- `_remove_dialogue_markers`: collapse `- X! - X!` (and the `[.?!]` variant)
into `X!` resp. `X<last char>`. -/
def removeDialogueMarkers (text : Str) : Str :=
  match matchDlgGroup ['!'] text with
  | some g => g ++ ['!']
  | none =>
    match matchDlgGroup ['.', '?', '!'] text with
    | some g => g ++ [text.getLastD ' ']
    | none => text

/-- `_remove_repetition`: `^(\w+),\s*\1([.!?])$` (IGNORECASE) rewritten to
`\1\2`.  The match is deterministic: `\w+` is greedy and any shorter
choice puts a word character where the `,` must be; after the `,`, `\s*`
must consume exactly the whitespace run because `\1` starts with a word
character. -/
def removeRepetition (text : Str) : Str :=
  let w := text.takeWhile isWordChar
  if w.isEmpty then text
  else
    match text.drop w.length with
    | ',' :: r2 =>
      let r3 := r2.drop (wsCount r2)
      if decide (w.length ≤ r3.length) && ciEq (r3.take w.length) w then
        match r3.drop w.length with
        | p :: r5 =>
          if ['.', '!', '?'].contains p && matchAtEnd r5 then w ++ [p] else text
        | [] => text
      else text
    | _ => text

/-- First substitution of `_normalize_punctuation`: `re.sub(r'([.!?])\1+', r'\1', text)`.
A run of one repeated terminal-punctuation character collapses to a single
occurrence; the scan resumes after the run.  `fuel` (seeded with the text
length) only makes the recursion structural — every step consumes at least
one character. -/
def collapseRunsGo : Nat → Str → Str
  | 0, s => s
  | _ + 1, [] => []
  | fuel + 1, c :: rest =>
    if ['.', '!', '?'].contains c && rest.head? == some c then
      c :: collapseRunsGo fuel (rest.dropWhile (fun d => d == c))
    else
      c :: collapseRunsGo fuel rest

/-- Second substitution of `_normalize_punctuation`: `re.sub(r'\s+([.!?])', r'\1', text)`.
A whitespace run immediately followed by terminal punctuation is dropped.
If the character after a whitespace run is not terminal punctuation, no
sub-run can match either (every `\s+` match ends right before the same
non-punctuation character), so the whole run is emitted unchanged.  `fuel`
as in `collapseRunsGo`. -/
def dropWsBeforePunctGo : Nat → Str → Str
  | 0, s => s
  | _ + 1, [] => []
  | fuel + 1, c :: rest =>
    if pyIsSpace c then
      let run := rest.takeWhile pyIsSpace
      let after := rest.drop run.length
      match after with
      | p :: r2 =>
        if ['.', '!', '?'].contains p then p :: dropWsBeforePunctGo fuel r2
        else (c :: run) ++ dropWsBeforePunctGo fuel after
      | [] => c :: run
    else c :: dropWsBeforePunctGo fuel rest

/-- `_normalize_punctuation`. -/
def normalizePunct (text : Str) : Str :=
  let t1 := collapseRunsGo text.length text
  dropWsBeforePunctGo t1.length t1

/-- `postprocess_translation`. -/
def postprocessTranslation (text : Str) : Str :=
  if text.isEmpty then text
  else if (pyStrip text).isEmpty then []
  else normalizePunct (removeRepetition (removeDialogueMarkers (pyStrip text)))

/-!  ### `movie_translator/translation/translator.py`  -/

/-- `DialogueLine` from `movie_translator/types.py`. -/
structure DialogueLine where
  start_ms : Int
  end_ms : Int
  text : Str
deriving DecidableEq

/-- The body of the `_apply_preprocessing` loop over `enumerate(texts)` at
starting index `i`: processed texts, skip indices (ascending, as the Python
set is populated), and the cached table translations (index-keyed dict). -/
def applyPreprocessingGo (i : Nat) : List Str → List Str × List Nat × List (Nat × Str)
  | [] => ([], [], [])
  | t :: ts =>
    let pr := preprocessForTranslation t
    let rest := applyPreprocessingGo (i + 1) ts
    (pr.1 :: rest.1,
     if pr.2 then i :: rest.2.1 else rest.2.1,
     if pr.2 then (i, pr.1) :: rest.2.2 else rest.2.2)

/-- `SubtitleTranslator._apply_preprocessing` (enhancements enabled). -/
def applyPreprocessing (texts : List Str) : List Str × List Nat × List (Nat × Str) :=
  applyPreprocessingGo 0 texts

/-- The `>>pol<< ` marker of `_preprocess_texts` for bidirectional models. -/
def bidiTag : Str := S (">>pol<< ")

/-- `_preprocess_texts`: prefix every line with the target-language tag when
the model id contains `bidi` (the boolean `bidi` embeds that check). -/
def preprocessTexts (bidi : Bool) (texts : List Str) : List Str :=
  if bidi then texts.map (fun t => bidiTag ++ t) else texts

/-- `preprocessTexts` on one element. -/
def preprocessOne (bidi : Bool) (t : Str) : Str := if bidi then bidiTag ++ t else t

/-- The per-line fallback decision of `_apply_fallbacks` at index `i`:
table-resolved indices keep the cached translation; otherwise an empty (after
trimming) candidate, or a candidate shorter than 2 characters while the
original is longer than 5 (both after `.strip()`), is replaced by the
original text. -/
def pickFallback (i : Nat) (original translated : Str) (skips : List Nat)
    (cached : List (Nat × Str)) : Str :=
  if skips.contains i then (cached.lookup i).getD translated
  else if (pyStrip translated).isEmpty then original
  else if (pyStrip translated).length < 2 && 5 < (pyStrip original).length then original
  else translated

/-- The loop of `_apply_fallbacks` over `enumerate(zip(originals, translations,
strict=True))`: a length mismatch models the `ValueError` that `strict=True`
raises. -/
def applyFallbacksGo (skips : List Nat) (cached : List (Nat × Str)) (i : Nat) :
    List Str → List Str → Except String (List Str)
  | [], [] => .ok []
  | o :: os, t :: ts =>
    match applyFallbacksGo skips cached (i + 1) os ts with
    | .error e => .error e
    | .ok rest => .ok (pickFallback i o t skips cached :: rest)
  | _, _ => .error (S ("zip argument lengths differ") |> String.mk)

/-- `SubtitleTranslator._apply_fallbacks`. -/
def applyFallbacks (originals translations : List Str) (skips : List Nat)
    (cached : List (Nat × Str)) : Except String (List Str) :=
  applyFallbacksGo skips cached 0 originals translations

/-- The list handed to the translation backend by `_translate_batch`
(`processed_texts`, i.e. the **whole** preprocessed batch). -/
def backendInputOfBatch (bidi enh : Bool) (texts : List Str) : List Str :=
  preprocessTexts bidi (if enh then (applyPreprocessing texts).1 else texts)

/-- `SubtitleTranslator._translate_batch`.  `backend` abstracts the
encode/generate/decode pipeline; `.error` models a raised exception, which
this function does not catch.  (`_validate_inputs` only logs and is
omitted.) -/
def translateBatch (bidi enh : Bool) (backend : List Str → Except String (List Str))
    (texts : List Str) : Except String (List Str) :=
  let pre := if enh then applyPreprocessing texts else (texts, [], [])
  match backend (backendInputOfBatch bidi enh texts) with
  | .error e => .error e
  | .ok decoded =>
    let decoded2 := if enh then decoded.map postprocessTranslation else decoded
    applyFallbacks texts decoded2 pre.2.1 pre.2.2

/-- The batching loop of `translate_texts` (`for i in range(0, len(texts),
batch_size)` with `batch_size = b + 1`): translate the first `b + 1` texts,
recurse on the rest, concatenate.  A backend exception propagates — there
is no handler in the source.  (The progress callback and the periodic
memory cleanup are observational and omitted.) -/
def translateTextsGo (bidi enh : Bool) (backend : List Str → Except String (List Str))
    (b : Nat) : List Str → Except String (List Str)
  | [] => .ok []
  | t :: ts =>
    match translateBatch bidi enh backend ((t :: ts).take (b + 1)) with
    | .error e => .error e
    | .ok tb =>
      match translateTextsGo bidi enh backend b (ts.drop b) with
      | .error e => .error e
      | .ok rest => .ok (tb ++ rest)
termination_by l => l.length
decreasing_by simp; omega

/-- `SubtitleTranslator.translate_texts`.  An empty input returns `[]` before
any batching; `batch_size = 0` would make `(len(texts) + batch_size - 1) //
batch_size` raise `ZeroDivisionError`. -/
def translateTexts (bidi enh : Bool) (backend : List Str → Except String (List Str))
    (batchSize : Nat) (texts : List Str) : Except String (List Str) :=
  if texts.isEmpty then .ok []
  else
    match batchSize with
    | 0 => .error (S ("integer division or modulo by zero") |> String.mk)
    | b + 1 => translateTextsGo bidi enh backend b texts

/-- The rebuild `[DialogueLine(line.start_ms, line.end_ms, text) for line, text
in zip(dialogue_lines, translated_texts, strict=True)]`. -/
def rebuildLines : List DialogueLine → List Str → Except String (List DialogueLine)
  | [], [] => .ok []
  | l :: ls, t :: ts =>
    match rebuildLines ls ts with
    | .error e => .error e
    | .ok rest => .ok ({ start_ms := l.start_ms, end_ms := l.end_ms, text := t } :: rest)
  | _, _ => .error (S ("zip argument lengths differ") |> String.mk)

/-- `translate_dialogue_lines` (the successfully-loaded-model path; a failed
`load_model()` returns `[]` before any translation and is outside this
embedding).  `SubtitleTranslator` is constructed with its default
`enable_enhancements=True`. -/
def translateDialogueLines (bidi : Bool) (backend : List Str → Except String (List Str))
    (batchSize : Nat) (lines : List DialogueLine) : Except String (List DialogueLine) :=
  match translateTexts bidi true backend batchSize (lines.map (fun l => l.text)) with
  | .error e => .error e
  | .ok translated => rebuildLines lines translated

/-!  ### `movie_translator/subtitles/processor.py`  -/

/-- `NON_DIALOGUE_STYLES` from `movie_translator/types.py`. -/
def nonDialogueStyles : List Str :=
  [S ("sign"), S ("song"), S ("title"), S ("op"), S ("ed")]

/-- A pysubs2 `SSAEvent`, restricted to the fields the embedded code reads.
`stop` is pysubs2's `.end` (`end` is a Lean keyword).  `plaintext` is
pysubs2's derived markup-free text; for events the code itself constructs
from already-plain text the two fields coincide. -/
structure SSAEvent where
  start : Int
  stop : Int
  style : Str
  text : Str
  plaintext : Str
deriving DecidableEq

/-- The mutable loop state of `_deduplicate_events`.  `uniqueSubs` holds the
Python `unique_subs` list in reverse (most recent first), so that mutating
`unique_subs[-1]` is a head update. -/
structure DedupState where
  uniqueSubs : List SSAEvent
  lastText : Option Str
  groupStart : Int
  groupEnd : Int

/-- The group-consolidation block of `_deduplicate_events` (`if last_text is
not None and unique_subs: unique_subs[-1] = SSAEvent(...)`), returning the
updated (still reversed) `unique_subs`. -/
def closeGroup (st : DedupState) : List SSAEvent :=
  match st.lastText, st.uniqueSubs with
  | some lt, prev :: rest =>
    { start := st.groupStart, stop := st.groupEnd, style := prev.style,
      text := lt, plaintext := lt } :: rest
  | _, acc => acc

/-- One iteration of the `_deduplicate_events` loop. -/
def dedupStep (st : DedupState) (e : SSAEvent) : DedupState :=
  let cleanText := pyStrip e.plaintext
  if cleanText.length < 2 then st
  else if st.lastText = some cleanText then { st with groupEnd := max st.groupEnd e.stop }
  else
    { uniqueSubs := e :: closeGroup st, lastText := some cleanText,
      groupStart := e.start, groupEnd := e.stop }

/-- `SubtitleProcessor._deduplicate_events`. -/
def deduplicateEvents (subs : List SSAEvent) : List SSAEvent :=
  let final := subs.foldl dedupStep
    { uniqueSubs := [], lastText := none, groupStart := 0, groupEnd := 0 }
  (closeGroup final).reverse

/-- The consolidated event a new group starts from, per the spec's wording of
Step A: the first event of the group, its text replaced by the stripped
plain text. -/
def startEvent (e : SSAEvent) : SSAEvent :=
  { start := e.start, stop := e.stop, style := e.style,
    text := pyStrip e.plaintext, plaintext := pyStrip e.plaintext }

/-- Spec-level merging of consecutive equal texts: an event whose stripped
plain text equals the current group's text extends the group's end to the
maximum; otherwise the group is emitted and a new one starts. -/
def mergeSpecGo (cur : SSAEvent) : List SSAEvent → List SSAEvent
  | [] => [cur]
  | e :: es =>
    if pyStrip e.plaintext = cur.text then
      mergeSpecGo { cur with stop := max cur.stop e.stop } es
    else cur :: mergeSpecGo (startEvent e) es

/-- Spec-level merge of a whole event list. -/
def mergeConsecutive : List SSAEvent → List SSAEvent
  | [] => []
  | e :: es => mergeSpecGo (startEvent e) es

/-- The deduplication algorithm as the spec states it: drop events whose plain
text is shorter than 2 characters, then merge consecutive equal texts. -/
def dedupSpec (subs : List SSAEvent) : List SSAEvent :=
  mergeConsecutive (subs.filter (fun e => !((pyStrip e.plaintext).length < 2)))

/-- `SubtitleProcessor._filter_dialogue`. -/
def filterDialogue : List SSAEvent → List DialogueLine
  | [] => []
  | e :: es =>
    if (pyStrip e.text).isEmpty then filterDialogue es
    else if nonDialogueStyles.any (fun kw => strContains (toLowerStr e.style) kw) then
      filterDialogue es
    else
      let cleanText := pyStrip e.plaintext
      if cleanText.isEmpty then filterDialogue es
      else { start_ms := e.start, end_ms := e.stop, text := cleanText } :: filterDialogue es

/-- The parsing-independent core of `extract_dialogue_lines`. -/
def extractDialogueCore (subs : List SSAEvent) : List DialogueLine :=
  filterDialogue (deduplicateEvents subs)

/-!  ### `movie_translator/subtitles/validator.py`  -/

/-- `TIMING_TOLERANCE_MS`. -/
def TIMING_TOLERANCE_MS : Int := 50

/-- Python `text.replace('\\N', ' ')` (the two-character ASS line-break
marker replaced by a space, left to right, non-overlapping). -/
def replaceNN : Str → Str
  | '\\' :: 'N' :: rest => ' ' :: replaceNN rest
  | c :: rest => c :: replaceNN rest
  | [] => []

/-- Append an occurrence to a key's list in the cleaned-text dict, preserving
insertion order (Python dict with list values). -/
def dictAppend : List (Str × List (Int × Int)) → Str → (Int × Int) →
    List (Str × List (Int × Int))
  | [], k, p => [(k, [p])]
  | (k', v) :: rest, k, p =>
    if k' == k then (k', v ++ [p]) :: rest else (k', v) :: dictAppend rest k p

/-- `SubtitleValidator._build_cleaned_dict`. -/
def buildCleanedDict (cleanedSubs : List SSAEvent) : List (Str × List (Int × Int)) :=
  cleanedSubs.foldl
    (fun dict e =>
      let cleanText := pyStrip (replaceNN e.text)
      if cleanText.isEmpty then dict else dictAppend dict cleanText (e.start, e.stop))
    []

/-- `SubtitleValidator._check_timing_coverage`. -/
def checkTimingCoverage (start stop : Int) (cleanedTimings : List (Int × Int)) : Bool :=
  cleanedTimings.any (fun p =>
    decide (p.1 ≤ start + TIMING_TOLERANCE_MS) && decide (p.2 ≥ stop - TIMING_TOLERANCE_MS))

/-- The statistics dict of `_validate_coverage`. -/
structure ValidationStats where
  mismatches : Nat
  matched : Nat
  originalDialogueCount : Nat
  foundInCleaned : Nat
deriving DecidableEq

/-- One iteration of the `_validate_coverage` loop. -/
def validateStep (dict : List (Str × List (Int × Int))) (stats : ValidationStats)
    (e : SSAEvent) : ValidationStats :=
  let style := toLowerStr e.style
  if nonDialogueStyles.any (fun kw => strContains style kw) then stats
  else
    let cleanText := pyStrip e.plaintext
    if cleanText.isEmpty || cleanText.length < 2 then stats
    else
      let stats1 := { stats with originalDialogueCount := stats.originalDialogueCount + 1 }
      match dict.lookup cleanText with
      | some timings =>
        let stats2 := { stats1 with foundInCleaned := stats1.foundInCleaned + 1 }
        if checkTimingCoverage e.start e.stop timings then
          { stats2 with matched := stats2.matched + 1 }
        else
          { stats2 with mismatches := stats2.mismatches + 1 }
      | none => stats1

/-- `SubtitleValidator._validate_coverage`. -/
def validateCoverage (originalSubs : List SSAEvent)
    (dict : List (Str × List (Int × Int))) : ValidationStats :=
  originalSubs.foldl (validateStep dict) ⟨0, 0, 0, 0⟩

/-- Whether one original event is counted as a timing gap by `_validate_coverage`. -/
def isTimingGap (dict : List (Str × List (Int × Int))) (e : SSAEvent) : Bool :=
  !(nonDialogueStyles.any (fun kw => strContains (toLowerStr e.style) kw)) &&
  (let cleanText := pyStrip e.plaintext
   !(cleanText.isEmpty || cleanText.length < 2) &&
   (match dict.lookup cleanText with
    | some timings => !checkTimingCoverage e.start e.stop timings
    | none => false))

/-- `validate_cleaned_subtitles` on two already-parsed documents: it raises
`SubtitleValidationError('Found ... timing gaps')` iff the mismatch counter
is positive.  (The file-existence / library-availability / parse-failure
raises concern the I/O collaborators, outside this embedding.) -/
def validationFails (originalSubs cleanedSubs : List SSAEvent) : Bool :=
  0 < (validateCoverage originalSubs (buildCleanedDict cleanedSubs)).mismatches

/-!  ### `movie_translator/subtitles/extractor.py` (track selection)  -/

/-- A subtitle track as `_convert_ffprobe_info` produces it, restricted to the
fields track selection reads (`properties` inlined). -/
structure SubtitleTrack where
  ttype : Str
  codec : Str
  language : Str
  trackName : Str
  forced : Bool
deriving DecidableEq

/-- `SubtitleExtractor.TEXT_CODECS`. -/
def TEXT_CODECS : List Str :=
  [S ("ass"), S ("ssa"), S ("subrip"), S ("srt"), S ("webvtt"), S ("mov_text")]

/-- `SubtitleExtractor.IMAGE_CODECS`. -/
def IMAGE_CODECS : List Str :=
  [S ("hdmv_pgs_subtitle"), S ("dvd_subtitle"), S ("dvb_subtitle")]

/-- `_separate_by_codec`: unknown codecs land in the text bucket. -/
def separateByCodec (tracks : List SubtitleTrack) : List SubtitleTrack × List SubtitleTrack :=
  tracks.foldr
    (fun t acc =>
      let codec := toLowerStr t.codec
      if TEXT_CODECS.any (fun c => codec == c || c.isPrefixOf codec) then
        (t :: acc.1, acc.2)
      else if IMAGE_CODECS.any (fun c => codec == c || c.isPrefixOf codec) then
        (acc.1, t :: acc.2)
      else (t :: acc.1, acc.2))
    ([], [])

/-- `_categorize_tracks`: dialogue vs signs by scanning the display name. -/
def categorizeTracks (tracks : List SubtitleTrack) : List SubtitleTrack × List SubtitleTrack :=
  tracks.foldr
    (fun t acc =>
      if nonDialogueStyles.any (fun kw => strContains (toLowerStr t.trackName) kw) then
        (acc.1, t :: acc.2)
      else (t :: acc.1, acc.2))
    ([], [])

/-- `_handle_image_tracks`: `enableOcr` is the `--enable-ocr` flag,
`ocrAvail` the runtime `SubtitleOCR().check_availability()` probe.  (The
`requires_ocr` marker written onto the selected track is dropped; the
total-count argument only feeds log messages.) -/
def handleImageTracks (enableOcr ocrAvail : Bool) (imageTracks : List SubtitleTrack) :
    Option SubtitleTrack :=
  if !enableOcr then none
  else if ocrAvail then imageTracks.head?
  else none

/-- `_select_from_dialogue_tracks`. -/
def selectFromDialogueTracks (enableOcr ocrAvail : Bool)
    (dialogueTracks : List SubtitleTrack) : Option SubtitleTrack :=
  let parts := separateByCodec dialogueTracks
  match parts.1 with
  | t :: _ => some t
  | [] =>
    if !parts.2.isEmpty then handleImageTracks enableOcr ocrAvail parts.2
    else if !dialogueTracks.isEmpty then dialogueTracks.head?
    else none

/-- `_select_from_signs_tracks`. -/
def selectFromSignsTracks (signsTracks englishTracks : List SubtitleTrack) :
    Option SubtitleTrack :=
  let parts := separateByCodec signsTracks
  match parts.1 with
  | t :: _ => some t
  | [] =>
    if !parts.2.isEmpty then none
    else
      match englishTracks.filter (fun t => !t.forced) with
      | t :: _ => some t
      | [] => englishTracks.head?

/-- `_select_best_track`. -/
def selectBestTrack (enableOcr ocrAvail : Bool) (englishTracks : List SubtitleTrack) :
    Option SubtitleTrack :=
  let parts := categorizeTracks englishTracks
  let result :=
    if parts.1.isEmpty then none
    else selectFromDialogueTracks enableOcr ocrAvail parts.1
  match result with
  | some r => some r
  | none => selectFromSignsTracks parts.2 englishTracks

/-- `_get_english_tracks`. -/
def getEnglishTracks (tracks : List SubtitleTrack) : List SubtitleTrack :=
  tracks.filter (fun t =>
    t.ttype == S ("subtitles") && (t.language == S ("eng") || t.language == S ("en")))

/-- `find_english_track`. -/
def findEnglishTrack (enableOcr ocrAvail : Bool) (tracks : List SubtitleTrack) :
    Option SubtitleTrack :=
  let englishTracks := getEnglishTracks tracks
  match englishTracks with
  | [] => none
  | [t] => some t
  | _ => selectBestTrack enableOcr ocrAvail englishTracks

/-!  ### `movie_translator/types.py` / `movie_translator/subtitles/writer.py`  -/

/-- `POLISH_CHAR_MAP = str.maketrans('ąćęłńóśźżĄĆĘŁŃÓŚŹŻ', 'acelnoszzACELNOSZZ')`,
embedded as the character pairs of the translation table. -/
def POLISH_CHAR_PAIRS : List (Char × Char) :=
  [('ą', 'a'), ('ć', 'c'), ('ę', 'e'), ('ł', 'l'), ('ń', 'n'),
   ('ó', 'o'), ('ś', 's'), ('ź', 'z'), ('ż', 'z'),
   ('Ą', 'A'), ('Ć', 'C'), ('Ę', 'E'), ('Ł', 'L'), ('Ń', 'N'),
   ('Ó', 'O'), ('Ś', 'S'), ('Ź', 'Z'), ('Ż', 'Z')]

/-- `str.translate(POLISH_CHAR_MAP)` on one character: table lookup with the
character itself as default. -/
def replacePolishChar (c : Char) : Char := (POLISH_CHAR_PAIRS.lookup c).getD c

/-- `replace_polish_chars` / `_replace_polish_chars`. -/
def replacePolishChars (l : Str) : Str := l.map replacePolishChar

/-!  ## Helper lemmas  -/

theorem lookup_mem {α β : Type} [BEq α] [LawfulBEq α] :
    ∀ {l : List (α × β)} {k : α} {v : β}, l.lookup k = some v → (k, v) ∈ l := by
  intro l
  induction l with
  | nil => intro k v h; simp [List.lookup] at h
  | cons p rest ih =>
    intro k v h
    rw [List.lookup] at h
    by_cases hk : k == p.1
    · simp [hk] at h
      subst h
      have : k = p.1 := by exact eq_of_beq hk
      subst this
      exact List.mem_cons_self _ _
    · simp [hk] at h
      exact List.mem_cons_of_mem _ (ih h)

theorem dropWhile_self {α : Type} (p : α → Bool) (l : List α) :
    (l.dropWhile p).dropWhile p = l.dropWhile p := by
  induction l with
  | nil => rfl
  | cons a rest ih =>
    by_cases h : p a
    · simp [List.dropWhile, h, ih]
    · simp [List.dropWhile, h]

theorem dropWhile_head_not {α : Type} (p : α → Bool) (l : List α) :
    l.dropWhile p = [] ∨ ∃ a rest, l.dropWhile p = a :: rest ∧ p a = false := by
  induction l with
  | nil => exact Or.inl rfl
  | cons a rest ih =>
    by_cases h : p a
    · simpa [List.dropWhile, h] using ih
    · exact Or.inr ⟨a, rest, by simp [List.dropWhile, h], by simpa using h⟩

theorem dropWhile_eq_self_of_head {α : Type} (p : α → Bool) :
    ∀ (l : List α), (l = [] ∨ ∃ a rest, l = a :: rest ∧ p a = false) → l.dropWhile p = l := by
  intro l h
  rcases h with h | ⟨a, rest, rfl, ha⟩
  · subst h; rfl
  · simp [List.dropWhile, ha]

theorem stripRight_append (l : Str) :
    ∃ pre : Str, l = (l.reverse.dropWhile pyIsSpace).reverse ++ pre := by
  rcases List.dropWhile_suffix (l := l.reverse) (p := pyIsSpace) with ⟨pre, hpre⟩
  refine ⟨pre.reverse, ?_⟩
  have := congrArg List.reverse hpre
  simpa [List.reverse_append] using this.symm

theorem pyStrip_idem (l : Str) : pyStrip (pyStrip l) = pyStrip l := by
  unfold pyStrip
  set a := l.dropWhile pyIsSpace with ha
  set b := (a.reverse.dropWhile pyIsSpace).reverse with hb
  have hrev : b.reverse = a.reverse.dropWhile pyIsSpace := by
    rw [hb, List.reverse_reverse]
  have hleft : b.dropWhile pyIsSpace = b := by
    apply dropWhile_eq_self_of_head
    rcases hbe : b with _ | ⟨c, t⟩
    · exact Or.inl rfl
    · refine Or.inr ⟨c, t, rfl, ?_⟩
      rcases stripRight_append a with ⟨pre, hpre⟩
      rw [← hb, hbe] at hpre
      rcases dropWhile_head_not pyIsSpace l with h0 | ⟨a0, arest, ha0, hna⟩
      · rw [← ha] at h0
        rw [h0] at hpre
        simp at hpre
      · rw [← ha] at ha0
        rw [ha0] at hpre
        have : a0 = c := by
          have := congrArg (fun x => x.head?) hpre
          simpa using this
        rw [← this]
        exact hna
  rw [hleft, hrev, dropWhile_self]


theorem postprocess_eq_strip (s : Str)
    (h1 : removeDialogueMarkers (pyStrip s) = pyStrip s)
    (h2 : removeRepetition (pyStrip s) = pyStrip s)
    (h3 : normalizePunct (pyStrip s) = pyStrip s) :
    postprocessTranslation s = pyStrip s := by
  unfold postprocessTranslation
  by_cases he : s.isEmpty = true
  · have hs : s = [] := by simpa using he
    subst hs
    simp [pyStrip]
  · rw [if_neg he]
    by_cases hw : (pyStrip s).isEmpty = true
    · have hps : pyStrip s = [] := by simpa using hw
      rw [if_pos hw, hps]
    · rw [if_neg hw, h1, h2, h3]

theorem applyPreprocessingGo_fst (i : Nat) (ts : List Str) :
    (applyPreprocessingGo i ts).1 = ts.map (fun t => (preprocessForTranslation t).1) := by
  induction ts generalizing i with
  | nil => rfl
  | cons t rest ih => simp [applyPreprocessingGo, ih]

theorem applyPreprocessingGo_skips_ge (i : Nat) (ts : List Str) :
    ∀ x ∈ (applyPreprocessingGo i ts).2.1, i ≤ x := by
  induction ts generalizing i with
  | nil => intro x hx; simp [applyPreprocessingGo] at hx
  | cons t rest ih =>
    intro x hx
    simp only [applyPreprocessingGo] at hx
    by_cases hp : (preprocessForTranslation t).2
    · simp only [hp, if_true, List.mem_cons] at hx
      rcases hx with rfl | hx
      · exact le_refl x
      · exact Nat.le_of_succ_le (ih (i + 1) x hx)
    · simp only [hp, if_false, Bool.false_eq_true] at hx
      exact Nat.le_of_succ_le (ih (i + 1) x hx)

theorem applyPreprocessingGo_cached_ge (i : Nat) (ts : List Str) :
    ∀ kv ∈ (applyPreprocessingGo i ts).2.2, i ≤ kv.1 := by
  induction ts generalizing i with
  | nil => intro kv hkv; simp [applyPreprocessingGo] at hkv
  | cons t rest ih =>
    intro kv hkv
    simp only [applyPreprocessingGo] at hkv
    by_cases hp : (preprocessForTranslation t).2
    · simp only [hp, if_true, List.mem_cons] at hkv
      rcases hkv with rfl | hkv
      · exact le_refl _
      · exact Nat.le_of_succ_le (ih (i + 1) kv hkv)
    · simp only [hp, if_false, Bool.false_eq_true] at hkv
      exact Nat.le_of_succ_le (ih (i + 1) kv hkv)

theorem applyPreprocessingGo_skips_mem (i j : Nat) (ts : List Str) (t : Str)
    (hj : ts[j]? = some t) :
    ((i + j) ∈ (applyPreprocessingGo i ts).2.1) ↔ (preprocessForTranslation t).2 = true := by
  induction ts generalizing i j with
  | nil => simp at hj
  | cons u rest ih =>
    cases j with
    | zero =>
      obtain rfl : u = t := by simpa using hj
      simp only [applyPreprocessingGo, Nat.add_zero]
      by_cases hp : (preprocessForTranslation u).2
      · simp [hp]
      · simp only [hp, if_false, Bool.false_eq_true, iff_false]
        intro hcon
        have := applyPreprocessingGo_skips_ge (i + 1) rest i hcon
        omega
    | succ jp =>
      have hj2 : rest[jp]? = some t := by simpa using hj
      have := ih (i + 1) jp hj2
      simp only [applyPreprocessingGo]
      by_cases hp : (preprocessForTranslation u).2
      · simp only [hp, if_true, List.mem_cons]
        constructor
        · intro hx
          rcases hx with heq | hx
          · omega
          · exact this.mp (by
              have : i + (jp + 1) = (i + 1) + jp := by omega
              rwa [this] at hx)
        · intro hx
          right
          have heq : i + (jp + 1) = (i + 1) + jp := by omega
          rw [heq]
          exact this.mpr hx
      · simp only [hp, if_false, Bool.false_eq_true]
        have heq : i + (jp + 1) = (i + 1) + jp := by omega
        rw [heq]
        exact this

theorem applyPreprocessingGo_cached_lookup (i j : Nat) (ts : List Str) (t : Str)
    (hj : ts[j]? = some t) :
    (applyPreprocessingGo i ts).2.2.lookup (i + j) =
      (if (preprocessForTranslation t).2 then some (preprocessForTranslation t).1 else none) := by
  induction ts generalizing i j with
  | nil => simp at hj
  | cons u rest ih =>
    cases j with
    | zero =>
      obtain rfl : u = t := by simpa using hj
      simp only [applyPreprocessingGo, Nat.add_zero]
      by_cases hp : (preprocessForTranslation u).2
      · simp [hp, List.lookup]
      · have hpf : (preprocessForTranslation u).2 = false := by simpa using hp
        rw [hpf]
        simp only [Bool.false_eq_true, if_false]
        rcases hlk : (applyPreprocessingGo (i + 1) rest).2.2.lookup i with _ | v
        · rfl
        · exfalso
          have hmem := lookup_mem hlk
          have := applyPreprocessingGo_cached_ge (i + 1) rest _ hmem
          simp only [] at this
          omega
    | succ jp =>
      have hj2 : rest[jp]? = some t := by simpa using hj
      have hrec := ih (i + 1) jp hj2
      have heq : i + (jp + 1) = (i + 1) + jp := by omega
      simp only [applyPreprocessingGo]
      by_cases hp : (preprocessForTranslation u).2
      · simp only [hp, if_true, List.lookup]
        have hne : ((i + (jp + 1) : Nat) == i) = false := by
          simp only [beq_eq_false_iff_ne, ne_eq]
          omega
        rw [hne, heq]
        exact hrec
      · simp only [hp, if_false]
        rw [heq]
        exact hrec


theorem applyFallbacksGo_spec (skips : List Nat) (cached : List (Nat × Str)) :
    ∀ (os ts : List Str) (i : Nat), os.length = ts.length →
      ∃ r, applyFallbacksGo skips cached i os ts = .ok r ∧ r.length = os.length ∧
        ∀ j, r[j]? = (os[j]?).bind (fun o =>
          (ts[j]?).map (fun t => pickFallback (i + j) o t skips cached)) := by
  intro os
  induction os with
  | nil =>
    intro ts i hlen
    cases ts with
    | nil => exact ⟨[], rfl, rfl, by intro j; simp⟩
    | cons t ts' => simp at hlen
  | cons o os' ih =>
    intro ts i hlen
    cases ts with
    | nil => simp at hlen
    | cons t ts' =>
      have hlen' : os'.length = ts'.length := by simpa using hlen
      obtain ⟨r, hr, hrlen, hget⟩ := ih ts' (i + 1) hlen'
      refine ⟨pickFallback i o t skips cached :: r, ?_, by simpa using hrlen, ?_⟩
      · simp only [applyFallbacksGo, hr]
      · intro j
        cases j with
        | zero => simp
        | succ jp =>
          have heq : i + (jp + 1) = (i + 1) + jp := by omega
          simp only [List.getElem?_cons_succ, heq]
          exact hget jp

theorem applyFallbacks_spec (originals translations : List Str) (skips : List Nat)
    (cached : List (Nat × Str)) (hlen : originals.length = translations.length) :
    ∃ r, applyFallbacks originals translations skips cached = .ok r ∧
      r.length = originals.length ∧
      ∀ j, r[j]? = (originals[j]?).bind (fun o =>
        (translations[j]?).map (fun t => pickFallback j o t skips cached)) := by
  obtain ⟨r, hr, hrlen, hget⟩ := applyFallbacksGo_spec skips cached originals translations 0 hlen
  exact ⟨r, hr, hrlen, fun j => by simpa using hget j⟩

theorem backendInput_eq (bidi enh : Bool) (texts : List Str) :
    backendInputOfBatch bidi enh texts =
      preprocessTexts bidi (if enh then applyPreprocessing texts else (texts, [], [])).1 := by
  cases enh <;> rfl

theorem backendInput_length (bidi enh : Bool) (texts : List Str) :
    (backendInputOfBatch bidi enh texts).length = texts.length := by
  rw [backendInput_eq]
  cases enh <;> cases bidi <;>
    simp [preprocessTexts, applyPreprocessing, applyPreprocessingGo_fst]

theorem translateBatch_spec (bidi enh : Bool)
    (backend : List Str → Except String (List Str)) (texts : List Str)
    (hbk : ∀ l, ∃ out, backend l = .ok out ∧ out.length = l.length) :
    ∃ r : List Str, translateBatch bidi enh backend texts = .ok r ∧ r.length = texts.length ∧
      (enh = true → ∀ (j : Nat) (t : Str), texts[j]? = some t →
        (preprocessForTranslation t).2 = true →
        r[j]? = some (preprocessForTranslation t).1) := by
  obtain ⟨out, hout, houtlen⟩ := hbk (backendInputOfBatch bidi enh texts)
  have hinlen : (backendInputOfBatch bidi enh texts).length = texts.length :=
    backendInput_length bidi enh texts
  have hdlen : (if enh then out.map postprocessTranslation else out).length = texts.length := by
    cases enh <;> simp [houtlen, hinlen]
  obtain ⟨r, hr, hrlen, hget⟩ :=
    applyFallbacks_spec texts (if enh then out.map postprocessTranslation else out)
      (if enh then applyPreprocessing texts else (texts, [], [])).2.1
      (if enh then applyPreprocessing texts else (texts, [], [])).2.2
      hdlen.symm
  have hbatch : translateBatch bidi enh backend texts = .ok r := by
    simp only [translateBatch, hout]
    exact hr
  refine ⟨r, hbatch, hrlen, ?_⟩
  intro henh j t hjt hskip
  subst henh
  simp at hget
  have hj : j < texts.length := by
    by_contra hge
    rw [List.getElem?_eq_none (by omega)] at hjt
    exact Option.noConfusion hjt
  have hjd : j < out.length := by
    rw [houtlen, hinlen]
    exact hj
  have hd := List.getElem?_eq_getElem hjd
  have hgj := hget j
  rw [hjt, hd] at hgj
  simp only [Option.some_bind, Option.map_some, Function.comp] at hgj
  have hmem : j ∈ (applyPreprocessing texts).2.1 := by
    have := (applyPreprocessingGo_skips_mem 0 j texts t (by simpa using hjt)).mpr hskip
    simpa [applyPreprocessing] using this
  have hskips : (applyPreprocessing texts).2.1.contains j = true := by
    simpa [List.contains, List.elem_iff] using hmem
  have hcache : (applyPreprocessing texts).2.2.lookup j =
      some (preprocessForTranslation t).1 := by
    have := applyPreprocessingGo_cached_lookup 0 j texts t (by simpa using hjt)
    simpa [applyPreprocessing, hskip] using this
  rw [hgj]
  simp [pickFallback, hskips, hcache]
  intro hcon
  exact absurd hmem hcon


theorem translateTextsGo_spec (bidi enh : Bool)
    (backend : List Str → Except String (List Str)) (b : Nat)
    (hbk : ∀ l, ∃ out, backend l = .ok out ∧ out.length = l.length) :
    ∀ (n : Nat) (texts : List Str), texts.length ≤ n →
      ∃ ts, translateTextsGo bidi enh backend b texts = .ok ts ∧ ts.length = texts.length := by
  intro n
  induction n with
  | zero =>
    intro texts hlen
    have : texts = [] := List.length_eq_zero.mp (Nat.le_zero.mp hlen)
    subst this
    exact ⟨[], by simp [translateTextsGo], rfl⟩
  | succ n ih =>
    intro texts hlen
    cases texts with
    | nil => exact ⟨[], by simp [translateTextsGo], rfl⟩
    | cons t ts =>
      obtain ⟨tb, htb, htblen⟩ :=
        translateBatch_spec bidi enh backend ((t :: ts).take (b + 1)) hbk
      obtain ⟨rest, hrest, hrestlen⟩ := ih (ts.drop b)
        (by
          have : (ts.drop b).length = ts.length - b := List.length_drop b ts
          have hts : ts.length ≤ n := by simpa using hlen
          omega)
      refine ⟨tb ++ rest, ?_, ?_⟩
      · rw [translateTextsGo, htb, hrest]
      · rw [List.length_append, htblen.1, hrestlen]
        simp only [List.length_take, List.length_drop, List.length_cons]
        omega

theorem translateTexts_spec (bidi enh : Bool)
    (backend : List Str → Except String (List Str)) (batchSize : Nat)
    (hB : 0 < batchSize)
    (hbk : ∀ l, ∃ out, backend l = .ok out ∧ out.length = l.length)
    (texts : List Str) :
    ∃ ts, translateTexts bidi enh backend batchSize texts = .ok ts ∧
      ts.length = texts.length := by
  unfold translateTexts
  by_cases he : texts.isEmpty
  · have : texts = [] := by simpa using he
    subst this
    exact ⟨[], by simp, rfl⟩
  · rw [if_neg he]
    cases batchSize with
    | zero => omega
    | succ b =>
      exact translateTextsGo_spec bidi enh backend b hbk texts.length texts (le_refl _)

theorem rebuildLines_spec :
    ∀ (lines : List DialogueLine) (texts : List Str),
      lines.length = texts.length →
      ∃ out, rebuildLines lines texts = .ok out ∧ out.length = lines.length ∧
        out.map (fun l => (l.start_ms, l.end_ms)) =
          lines.map (fun l => (l.start_ms, l.end_ms)) := by
  intro lines
  induction lines with
  | nil =>
    intro texts hlen
    cases texts with
    | nil => exact ⟨[], rfl, rfl, rfl⟩
    | cons t ts => simp at hlen
  | cons l ls ih =>
    intro texts hlen
    cases texts with
    | nil => simp at hlen
    | cons t ts =>
      obtain ⟨out, hout, hlen2, hmap⟩ := ih ts (by simpa using hlen)
      refine ⟨{ start_ms := l.start_ms, end_ms := l.end_ms, text := t } :: out, ?_, ?_, ?_⟩
      · simp only [rebuildLines, hout]
      · simpa using hlen2
      · simpa using hmap

/-!  ## Claim theorems  -/

/-- C1.  For every input list of dialogue lines, the Translation Orchestrator
(`translate_dialogue_lines` / `SubtitleTranslator.translate_texts`)
returns a list of the same length whose elements carry the same
`(start_ms, end_ms)` pairs in the same order as the input; only the text
may differ.  Hypotheses: a positive batch size, and a backend that
returns one output string per input string (the spec's stated contract of
the external translation backend). -/
theorem claim1_orchestrator_preserves_timing (bidi : Bool)
    (backend : List Str → Except String (List Str)) (batchSize : Nat)
    (hB : 0 < batchSize)
    (hbk : ∀ l, ∃ out, backend l = .ok out ∧ out.length = l.length) :
    (∀ texts : List Str, ∃ ts, translateTexts bidi true backend batchSize texts = .ok ts ∧
      ts.length = texts.length) ∧
    (∀ lines : List DialogueLine,
      ∃ out, translateDialogueLines bidi backend batchSize lines = .ok out ∧
        out.length = lines.length ∧
        out.map (fun l => (l.start_ms, l.end_ms)) =
          lines.map (fun l => (l.start_ms, l.end_ms))) := by
  constructor
  · intro texts
    exact translateTexts_spec bidi true backend batchSize hB hbk texts
  · intro lines
    obtain ⟨ts, hts, htslen⟩ :=
      translateTexts_spec bidi true backend batchSize hB hbk (lines.map (fun l => l.text))
    obtain ⟨out, hout, houtlen, hmap⟩ := rebuildLines_spec lines ts
      (by rw [htslen, List.length_map])
    refine ⟨out, ?_, houtlen, hmap⟩
    unfold translateDialogueLines
    rw [hts]
    exact hout

/-- C1 witness: a concrete run with the identity backend and batch size 2. -/
theorem claim1_witness :
    ∃ out, translateDialogueLines false (fun l => .ok l) 2
        [⟨1000, 2000, S ("Hello there")⟩, ⟨2000, 3000, S ("Yes.")⟩,
         ⟨3000, 4000, S ("Good evening")⟩] = .ok out ∧
      out.length = 3 ∧
      out.map (fun l => (l.start_ms, l.end_ms)) =
        [((1000 : Int), (2000 : Int)), (2000, 3000), (3000, 4000)] :=
  (claim1_orchestrator_preserves_timing false (fun l => .ok l) 2 (by decide)
    (fun l => ⟨l, rfl, rfl⟩)).2
    [⟨1000, 2000, S ("Hello there")⟩, ⟨2000, 3000, S ("Yes.")⟩,
     ⟨3000, 4000, S ("Good evening")⟩]

/-- C2 counterexample.  The claim says a backend exception for a batch is
caught, the batch's original texts are substituted, and the run continues
— which for this one-batch input would yield `.ok [original]`.  In the
code neither `translate_texts` nor `_translate_batch` contains a handler:
the exception propagates and the whole run aborts with it. -/
theorem claim2_counterexample :
    translateTexts false true (fun _ => .error ("backend down")) 2
        [S ("Hello world")] = .error ("backend down") ∧
      translateTexts false true (fun _ => .error ("backend down")) 2
        [S ("Hello world")] ≠ .ok [S ("Hello world")] := by
  have h : translateTexts false true (fun _ => .error ("backend down")) 2
      [S ("Hello world")] = .error ("backend down") := by
    simp [translateTexts, translateTextsGo, translateBatch]
  exact ⟨h, by rw [h]; exact fun hcon => Except.noConfusion hcon⟩

/-- C2 amended.  If the backend call for the first batch raises, the
Orchestrator does not catch it: `translate_texts` propagates the
exception (aborting the run, with no per-batch substitution of
originals). -/
theorem claim2_amended_backend_error_propagates (bidi enh : Bool)
    (backend : List Str → Except String (List Str)) (b : Nat) (e : String)
    (texts : List Str) (hne : texts ≠ [])
    (hfail : backend (backendInputOfBatch bidi enh (texts.take (b + 1))) = .error e) :
    translateTexts bidi enh backend (b + 1) texts = .error e := by
  cases texts with
  | nil => exact absurd rfl hne
  | cons t ts =>
    unfold translateTexts
    rw [if_neg (by simp)]
    have hb : translateBatch bidi enh backend ((t :: ts).take (b + 1)) = .error e := by
      unfold translateBatch
      rw [hfail]
    show translateTextsGo bidi enh backend b (t :: ts) = Except.error e
    rw [translateTextsGo.eq_def]
    simp only [hb]

/-- C2 amended witness: a concrete always-failing backend on a concrete
nonempty input. -/
theorem claim2_amended_witness :
    translateTexts false true (fun _ => .error ("boom")) 3
        [S ("One"), S ("Two"), S ("Three"), S ("Four")] = .error ("boom") :=
  claim2_amended_backend_error_propagates false true (fun _ => .error ("boom")) 2
    ("boom") [S ("One"), S ("Two"), S ("Three"), S ("Four")] (by decide) rfl

/-- C3 counterexample.  For the batch `["Yes."]` the only line is resolved by
the single-word table (`skip_indices = {0}`, cached `"Tak."`), so by the
claim the backend would be invoked on the empty non-skipped subset, i.e.
on `[]`.  In the code `_translate_batch` encodes and generates over
`processed_texts` — the **whole** batch, including the table-resolved
line's mapped text `"Tak."`. -/
theorem claim3_counterexample :
    (applyPreprocessing [S ("Yes.")]).2.1 = [0] ∧
      backendInputOfBatch false true [S ("Yes.")] = [S ("Tak.")] ∧
      backendInputOfBatch false true [S ("Yes.")] ≠ [] := by
  refine ⟨by decide, by decide, by decide⟩

/-- Table hits of the spec view coincide with the `was_mapped = True` path of
`preprocess_for_translation`. -/
theorem tableTranslation_eq (text f : Str) (hf : tableTranslation text = some f) :
    preprocessForTranslation text = (f, true) := by
  simp only [tableTranslation] at hf
  simp only [preprocessForTranslation]
  rcases h1 : PHRASE_BASE_MAP.lookup (normalizeForLookup text).1 with _ | v <;>
    rcases h2 : MULTI_WORD_PHRASES.lookup (normalizeForLookup text).1 with _ | w <;>
      simp only [h1, h2] at hf ⊢ <;> simp_all

/-- C3 amended.  For a line whose normalized lowercase base text is a phrase
table entry (with enhancements enabled), the final translation is indeed
produced directly from the table, re-capitalized and re-punctuated to
match the input — it overrides whatever the backend returned at that
position.  However the backend is **not** skipped for that line: the list
handed to the backend has one element per input line, and at the
table-resolved index it carries the mapped (table) text, so the backend
is invoked on the whole batch, not only on the non-skipped subset. -/
theorem claim3_amended_table_overrides_backend (bidi : Bool)
    (backend : List Str → Except String (List Str)) (texts : List Str)
    (i : Nat) (t f : Str) (hit : texts[i]? = some t)
    (hf : tableTranslation t = some f)
    (hbk : ∀ l, ∃ out, backend l = .ok out ∧ out.length = l.length) :
    (backendInputOfBatch bidi true texts).length = texts.length ∧
      (backendInputOfBatch bidi true texts)[i]? = some (preprocessOne bidi f) ∧
      ∃ r : List Str, translateBatch bidi true backend texts = .ok r ∧ r[i]? = some f := by
  have hpre := tableTranslation_eq t f hf
  refine ⟨backendInput_length bidi true texts, ?_, ?_⟩
  · rw [backendInput_eq]
    have hproc : (if true = true then applyPreprocessing texts else (texts, [], [])).1 =
        texts.map (fun u => (preprocessForTranslation u).1) := by
      simpa [applyPreprocessing] using applyPreprocessingGo_fst 0 texts
    rw [hproc]
    cases bidi <;>
      simp [preprocessTexts, preprocessOne, hit, hpre]
  · obtain ⟨r, hr, hrlen, hskipval⟩ := translateBatch_spec bidi true backend texts hbk
    refine ⟨r, hr, ?_⟩
    have := hskipval rfl i t hit (by rw [hpre])
    rw [this, hpre]

/-- C3 amended witness: the batch `["Yes.", "Good evening friends"]` with the
identity backend; index 0 is table-resolved to `"Tak."`. -/
theorem claim3_amended_witness :
    (backendInputOfBatch false true [S ("Yes."), S ("Good evening friends")]).length = 2 ∧
      (backendInputOfBatch false true [S ("Yes."), S ("Good evening friends")])[0]? =
        some (preprocessOne false (S ("Tak."))) ∧
      ∃ r : List Str, translateBatch false true (fun l => .ok l)
          [S ("Yes."), S ("Good evening friends")] = .ok r ∧ r[0]? = some (S ("Tak.")) :=
  claim3_amended_table_overrides_backend false (fun l => .ok l)
    [S ("Yes."), S ("Good evening friends")] 0 (S ("Yes.")) (S ("Tak."))
    (by decide) (by decide) (fun l => ⟨l, rfl, rfl⟩)

/-- C4.  For every batch, the fallback safeguard of `_apply_fallbacks`
replaces a candidate translation by the original source text exactly when
the candidate is empty or whitespace-only after trimming, or is shorter
than 2 characters (after trimming) while the original line is longer than
5 characters (after trimming); indices resolved by table lookup are never
subject to the safeguard — they take the cached table translation.  In
particular a backend output of `""` for the input `"Hello world"` yields
`"Hello world"`. -/
theorem claim4_fallback_safeguard :
    (∀ (originals translations : List Str) (skips : List Nat) (cached : List (Nat × Str)),
      originals.length = translations.length →
      ∃ r : List Str, applyFallbacks originals translations skips cached = .ok r ∧
        r.length = originals.length ∧
        ∀ (i : Nat) (oi ti : Str), originals[i]? = some oi → translations[i]? = some ti →
          (skips.contains i = true → r[i]? = some ((cached.lookup i).getD ti)) ∧
          (skips.contains i = false →
            r[i]? = some (if pyStrip ti = [] ∨
                ((pyStrip ti).length < 2 ∧ 5 < (pyStrip oi).length) then oi else ti))) ∧
      translateBatch false true (fun _ => .ok [S ("")]) [S ("Hello world")] =
        .ok [S ("Hello world")] := by
  constructor
  · intro originals translations skips cached hlen
    obtain ⟨r, hr, hrlen, hget⟩ := applyFallbacks_spec originals translations skips cached hlen
    refine ⟨r, hr, hrlen, ?_⟩
    intro i oi ti hoi hti
    have hi := hget i
    rw [hoi, hti] at hi
    simp at hi
    constructor
    · intro hsk
      rw [hi]
      have hmem : i ∈ skips := by simpa [List.contains, List.elem_iff] using hsk
      simp [pickFallback, hsk, hmem]
    · intro hsk
      have hnmem : i ∉ skips := by
        intro hcon
        have : skips.contains i = true := by simpa [List.contains, List.elem_iff] using hcon
        rw [this] at hsk
        exact Bool.noConfusion hsk
      rw [hi]
      congr 1
      unfold pickFallback
      rw [hsk]
      simp only [Bool.false_eq_true, if_false]
      by_cases h1 : pyStrip ti = []
      · simp [h1]
      · by_cases h2 : (pyStrip ti).length < 2 ∧ 5 < (pyStrip oi).length
        · rw [if_neg (by simpa [List.isEmpty_iff] using h1),
            if_pos (by simpa using h2), if_pos (Or.inr h2)]
        · rw [if_neg (by simpa [List.isEmpty_iff] using h1),
            if_neg (by simpa using h2),
            if_neg (by
              intro hcon
              rcases hcon with hcon | hcon
              · exact h1 hcon
              · exact h2 hcon)]
  · rfl


/-- C4 witness: a two-line batch, one empty backend candidate and one
table-resolved index. -/
theorem claim4_witness :
    ∃ r : List Str, applyFallbacks [S ("Hello world"), S ("Yes")]
        [S (""), S ("bad")] [1] [(1, S ("Tak"))] = .ok r ∧
      r.length = 2 ∧
      ∀ (i : Nat) (oi ti : Str),
        [S ("Hello world"), S ("Yes")][i]? = some oi →
        [S (""), S ("bad")][i]? = some ti →
        (List.contains [1] i = true → r[i]? = some ((List.lookup i [(1, S ("Tak"))]).getD ti)) ∧
        (List.contains [1] i = false →
          r[i]? = some (if pyStrip ti = [] ∨
              ((pyStrip ti).length < 2 ∧ 5 < (pyStrip oi).length) then oi else ti)) :=
  claim4_fallback_safeguard.1 [S ("Hello world"), S ("Yes")] [S (""), S ("bad")]
    [1] [(1, S ("Tak"))] (by decide)

theorem validateStep_mismatches (dict : List (Str × List (Int × Int)))
    (stats : ValidationStats) (e : SSAEvent) :
    (validateStep dict stats e).mismatches =
      stats.mismatches + (if isTimingGap dict e then 1 else 0) := by
  unfold validateStep isTimingGap
  by_cases hstyle : nonDialogueStyles.any (fun kw => strContains (toLowerStr e.style) kw) = true
  · simp [hstyle]
  · have hstyle' : nonDialogueStyles.any (fun kw => strContains (toLowerStr e.style) kw) = false :=
      by simpa using hstyle
    by_cases hshort : ((pyStrip e.plaintext).isEmpty || (pyStrip e.plaintext).length < 2) = true
    · simp [hstyle', hshort]
    · have hshort' : ((pyStrip e.plaintext).isEmpty ||
          decide ((pyStrip e.plaintext).length < 2)) = false := by simpa using hshort
      cases hlk : dict.lookup (pyStrip e.plaintext) with
      | none => simp [hstyle', hshort', hlk]
      | some timings =>
        by_cases hcov : checkTimingCoverage e.start e.stop timings = true
        · simp [hstyle', hshort', hlk, hcov]
        · have hcov' : checkTimingCoverage e.start e.stop timings = false := by simpa using hcov
          simp [hstyle', hshort', hlk, hcov']

theorem validateCoverage_mismatches_aux (dict : List (Str × List (Int × Int))) :
    ∀ (l : List SSAEvent) (stats : ValidationStats),
      (l.foldl (validateStep dict) stats).mismatches =
        stats.mismatches + l.countP (isTimingGap dict) := by
  intro l
  induction l with
  | nil => intro stats; simp
  | cons e rest ih =>
    intro stats
    rw [List.foldl_cons, ih, List.countP_cons, validateStep_mismatches]
    by_cases hg : isTimingGap dict e = true <;> simp [hg] <;> omega

theorem validateCoverage_mismatches (originalSubs : List SSAEvent)
    (dict : List (Str × List (Int × Int))) :
    (validateCoverage originalSubs dict).mismatches =
      originalSubs.countP (isTimingGap dict) := by
  unfold validateCoverage
  rw [validateCoverage_mismatches_aux]
  simp

theorem isTimingGap_iff (dict : List (Str × List (Int × Int))) (e : SSAEvent) :
    isTimingGap dict e = true ↔
      ((nonDialogueStyles.any (fun kw => strContains (toLowerStr e.style) kw)) = false ∧
       2 ≤ (pyStrip e.plaintext).length ∧
       ∃ timings, dict.lookup (pyStrip e.plaintext) = some timings ∧
         ¬ ∃ p ∈ timings, p.1 ≤ e.start + TIMING_TOLERANCE_MS ∧
           e.stop - TIMING_TOLERANCE_MS ≤ p.2) := by
  unfold isTimingGap
  cases hlk : dict.lookup (pyStrip e.plaintext) with
  | none => simp [hlk]
  | some timings =>
    simp only [hlk, Bool.and_eq_true, Bool.not_eq_true']
    constructor
    · rintro ⟨hstyle, hlen, hcov⟩
      refine ⟨hstyle, ?_, timings, rfl, ?_⟩
      · have := hlen
        simp only [Bool.or_eq_false_iff] at this
        have h2 := this.2
        simp at h2
        omega
      · intro hcon
        obtain ⟨p, hp, hp1, hp2⟩ := hcon
        have : checkTimingCoverage e.start e.stop timings = true := by
          unfold checkTimingCoverage
          rw [List.any_eq_true]
          exact ⟨p, hp, by simp [hp1, hp2]⟩
        rw [this] at hcov
        exact Bool.noConfusion hcov
    · rintro ⟨hstyle, hlen, timings2, htm, hcov⟩
      have heq : timings2 = timings := (Option.some_inj.mp htm).symm
      subst heq
      refine ⟨hstyle, ?_, ?_⟩
      · simp only [Bool.or_eq_false_iff]
        constructor
        · simp [List.isEmpty_iff]
          intro hcon
          rw [hcon] at hlen
          simp at hlen
        · simp
          omega
      · rw [Bool.eq_false_iff]
        intro hcon
        apply hcov
        unfold checkTimingCoverage at hcon
        rw [List.any_eq_true] at hcon
        obtain ⟨p, hp, hcond⟩ := hcon
        simp at hcond
        obtain ⟨hc1, hc2⟩ := hcond
        exact ⟨p, hp, by omega, by omega⟩

/-- C5.  The Timing Validator fails (raises) iff some original event with a
dialogue style and plaintext of at least 2 characters has its text present
in the cleaned file (a key of the cleaned dict) but no cleaned occurrence
of that text whose interval contains the original interval within the
50ms tolerance on each bound; an original dialogue line whose text never
appears in the cleaned file is counted as correctly removed, not a
failure.  The conjuncts check the spec's example: original `"Hi"` at
`[1000, 3000]` is covered by cleaned `"Hi"` at `[900, 3100]` but not by
cleaned `"Hi"` at `[5000, 6000]`. -/
theorem claim5_validator_fails_iff_gap :
    (∀ (originalSubs cleanedSubs : List SSAEvent),
      validationFails originalSubs cleanedSubs = true ↔
        ∃ e ∈ originalSubs,
          (nonDialogueStyles.any (fun kw => strContains (toLowerStr e.style) kw)) = false ∧
          2 ≤ (pyStrip e.plaintext).length ∧
          ∃ timings, (buildCleanedDict cleanedSubs).lookup (pyStrip e.plaintext) =
              some timings ∧
            ¬ ∃ p ∈ timings, p.1 ≤ e.start + TIMING_TOLERANCE_MS ∧
              e.stop - TIMING_TOLERANCE_MS ≤ p.2) ∧
    validationFails
        [{ start := 1000, stop := 3000, style := S ("Default"), text := S ("Hi"),
           plaintext := S ("Hi") }]
        [{ start := 900, stop := 3100, style := S ("Default"), text := S ("Hi"),
           plaintext := S ("Hi") }] = false ∧
    validationFails
        [{ start := 1000, stop := 3000, style := S ("Default"), text := S ("Hi"),
           plaintext := S ("Hi") }]
        [{ start := 5000, stop := 6000, style := S ("Default"), text := S ("Hi"),
           plaintext := S ("Hi") }] = true := by
  refine ⟨?_, by decide, by decide⟩
  intro originalSubs cleanedSubs
  unfold validationFails
  rw [validateCoverage_mismatches]
  simp only [decide_eq_true_eq]
  constructor
  · intro hpos
    obtain ⟨e, he, hgap⟩ := List.countP_pos_iff.mp hpos
    exact ⟨e, he, (isTimingGap_iff _ e).mp hgap⟩
  · rintro ⟨e, he, hprops⟩
    exact List.countP_pos_iff.mpr ⟨e, he, (isTimingGap_iff _ e).mpr hprops⟩

theorem dedup_aux :
    ∀ (es : List SSAEvent) (done : List SSAEvent) (first : SSAEvent) (k : Str) (gs ge : Int),
      (closeGroup (es.foldl dedupStep
          { uniqueSubs := first :: done, lastText := some k,
            groupStart := gs, groupEnd := ge })).reverse =
        done.reverse ++ mergeSpecGo
          { start := gs, stop := ge, style := first.style, text := k, plaintext := k }
          (es.filter (fun e => !((pyStrip e.plaintext).length < 2))) := by
  intro es
  induction es with
  | nil =>
    intro done first k gs ge
    simp [closeGroup, mergeSpecGo]
  | cons e rest ih =>
    intro done first k gs ge
    by_cases hshort : (pyStrip e.plaintext).length < 2
    · rw [List.foldl_cons]
      have hstep : dedupStep
          { uniqueSubs := first :: done, lastText := some k,
            groupStart := gs, groupEnd := ge } e =
          { uniqueSubs := first :: done, lastText := some k,
            groupStart := gs, groupEnd := ge } := by
        unfold dedupStep
        rw [if_pos hshort]
      rw [hstep]
      have hfilter : (e :: rest).filter (fun e => !((pyStrip e.plaintext).length < 2)) =
          rest.filter (fun e => !((pyStrip e.plaintext).length < 2)) := by
        simp [List.filter_cons, hshort]
      rw [hfilter]
      exact ih done first k gs ge
    · have hfilter : (e :: rest).filter (fun e => !((pyStrip e.plaintext).length < 2)) =
          e :: rest.filter (fun e => !((pyStrip e.plaintext).length < 2)) := by
        simp [List.filter_cons, hshort]
      rw [hfilter]
      by_cases heq : pyStrip e.plaintext = k
      · rw [List.foldl_cons]
        have hstep : dedupStep
            { uniqueSubs := first :: done, lastText := some k,
              groupStart := gs, groupEnd := ge } e =
            { uniqueSubs := first :: done, lastText := some k,
              groupStart := gs, groupEnd := max ge e.stop } := by
          unfold dedupStep
          rw [if_neg (by omega), if_pos (by rw [heq])]
        rw [hstep]
        have hmerge : mergeSpecGo
            { start := gs, stop := ge, style := first.style, text := k, plaintext := k }
            (e :: rest.filter (fun e => !((pyStrip e.plaintext).length < 2))) =
            mergeSpecGo
            { start := gs, stop := max ge e.stop, style := first.style,
              text := k, plaintext := k }
            (rest.filter (fun e => !((pyStrip e.plaintext).length < 2))) := by
          rw [mergeSpecGo]
          rw [if_pos heq]
        rw [hmerge]
        exact ih done first k gs (max ge e.stop)
      · rw [List.foldl_cons]
        have hstep : dedupStep
            { uniqueSubs := first :: done, lastText := some k,
              groupStart := gs, groupEnd := ge } e =
            { uniqueSubs := e ::
                ({ start := gs, stop := ge, style := first.style,
                   text := k, plaintext := k } :: done),
              lastText := some (pyStrip e.plaintext),
              groupStart := e.start, groupEnd := e.stop } := by
          unfold dedupStep
          rw [if_neg (by omega), if_neg (by
            intro hcon
            exact heq (Option.some_inj.mp hcon).symm)]
          rfl
        rw [hstep]
        have hih := ih
          ({ start := gs, stop := ge, style := first.style,
             text := k, plaintext := k } :: done) e (pyStrip e.plaintext) e.start e.stop
        rw [hih, mergeSpecGo, if_neg heq]
        simp [startEvent]

theorem dedup_eq_spec (subs : List SSAEvent) : deduplicateEvents subs = dedupSpec subs := by
  unfold deduplicateEvents dedupSpec
  induction subs with
  | nil => simp [closeGroup, mergeConsecutive]
  | cons e rest ih =>
    by_cases hshort : (pyStrip e.plaintext).length < 2
    · rw [List.foldl_cons]
      have hstep : dedupStep
          { uniqueSubs := [], lastText := none, groupStart := 0, groupEnd := 0 } e =
          { uniqueSubs := [], lastText := none, groupStart := 0, groupEnd := 0 } := by
        unfold dedupStep
        rw [if_pos hshort]
      rw [hstep]
      have hfilter : (e :: rest).filter (fun e => !((pyStrip e.plaintext).length < 2)) =
          rest.filter (fun e => !((pyStrip e.plaintext).length < 2)) := by
        simp [List.filter_cons, hshort]
      rw [hfilter]
      exact ih
    · rw [List.foldl_cons]
      have hstep : dedupStep
          { uniqueSubs := [], lastText := none, groupStart := 0, groupEnd := 0 } e =
          { uniqueSubs := [e], lastText := some (pyStrip e.plaintext),
            groupStart := e.start, groupEnd := e.stop } := by
        unfold dedupStep
        rw [if_neg (by omega), if_neg (by intro hcon; exact Option.noConfusion hcon)]
        rfl
      rw [hstep]
      have hfilter : (e :: rest).filter (fun e => !((pyStrip e.plaintext).length < 2)) =
          e :: rest.filter (fun e => !((pyStrip e.plaintext).length < 2)) := by
        simp [List.filter_cons, hshort]
      rw [hfilter]
      have := dedup_aux rest [] e (pyStrip e.plaintext) e.start e.stop
      simp only [List.reverse_nil, List.nil_append] at this
      rw [this, mergeConsecutive]
      simp [startEvent]

/-- C6.  During dialogue extraction, `_deduplicate_events` is exactly the
spec's algorithm: events with stripped plain text shorter than 2
characters are dropped before any comparison, and an event whose stripped
plain text equals the immediately preceding kept event's (case-sensitive)
is merged into it by extending its end to `max(current_end, new_end)`
instead of being appended.  In particular three consecutive `"Hello"`
events at `[0,1000]`, `[1000,2000]`, `[2000,3500]` collapse to a single
line `(0, 3500, "Hello")`. -/
theorem claim6_dedup_merges_consecutive :
    (∀ subs : List SSAEvent, deduplicateEvents subs = dedupSpec subs) ∧
    deduplicateEvents
        [{ start := 0, stop := 1000, style := S ("Default"), text := S ("Hello"),
           plaintext := S ("Hello") },
         { start := 1000, stop := 2000, style := S ("Default"), text := S ("Hello"),
           plaintext := S ("Hello") },
         { start := 2000, stop := 3500, style := S ("Default"), text := S ("Hello"),
           plaintext := S ("Hello") }] =
      [{ start := 0, stop := 3500, style := S ("Default"), text := S ("Hello"),
         plaintext := S ("Hello") }] ∧
    extractDialogueCore
        [{ start := 0, stop := 1000, style := S ("Default"), text := S ("Hello"),
           plaintext := S ("Hello") },
         { start := 1000, stop := 2000, style := S ("Default"), text := S ("Hello"),
           plaintext := S ("Hello") },
         { start := 2000, stop := 3500, style := S ("Default"), text := S ("Hello"),
           plaintext := S ("Hello") }] =
      [{ start_ms := 0, end_ms := 3500, text := S ("Hello") }] :=
  ⟨dedup_eq_spec, by decide, by decide⟩

/-- C7 counterexample.  Both English candidates are image-based (PGS)
dialogue tracks (names contain no non-dialogue marker) and OCR is
disabled, so by the claim the selector must return none — but
`_select_best_track` falls back to `_select_from_signs_tracks`, which,
with no signs candidates at all, returns the first non-forced English
track: an image-based dialogue track is selected without OCR. -/
theorem claim7_counterexample :
    (categorizeTracks
        [{ ttype := S ("subtitles"), codec := S ("hdmv_pgs_subtitle"), language := S ("eng"),
           trackName := S ("English Dialogue A"), forced := false },
         { ttype := S ("subtitles"), codec := S ("hdmv_pgs_subtitle"), language := S ("eng"),
           trackName := S ("English Dialogue B"), forced := false }]).2 = [] ∧
    (separateByCodec
        [{ ttype := S ("subtitles"), codec := S ("hdmv_pgs_subtitle"), language := S ("eng"),
           trackName := S ("English Dialogue A"), forced := false },
         { ttype := S ("subtitles"), codec := S ("hdmv_pgs_subtitle"), language := S ("eng"),
           trackName := S ("English Dialogue B"), forced := false }]).1 = [] ∧
    findEnglishTrack false false
        [{ ttype := S ("subtitles"), codec := S ("hdmv_pgs_subtitle"), language := S ("eng"),
           trackName := S ("English Dialogue A"), forced := false },
         { ttype := S ("subtitles"), codec := S ("hdmv_pgs_subtitle"), language := S ("eng"),
           trackName := S ("English Dialogue B"), forced := false }] =
      some { ttype := S ("subtitles"), codec := S ("hdmv_pgs_subtitle"), language := S ("eng"),
             trackName := S ("English Dialogue A"), forced := false } := by
  refine ⟨by decide, by decide, by decide⟩

/-- C7 amended.  When dialogue candidates exist and are all image-based, the
dialogue-selection step picks one (the first image track) iff the OCR
flag is enabled and OCR is available; otherwise the selector does **not**
return none found, but falls back to signs-track selection
(`_select_from_signs_tracks`), which can still select a track (a text
signs track, a non-forced English track, or the first English track).
With exactly one English candidate, `find_english_track` returns it
outright, without any OCR check. -/
theorem claim7_amended_image_dialogue_fallback (enableOcr ocrAvail : Bool)
    (englishTracks : List SubtitleTrack)
    (hd : (categorizeTracks englishTracks).1 ≠ [])
    (htext : (separateByCodec (categorizeTracks englishTracks).1).1 = [])
    (himg : (separateByCodec (categorizeTracks englishTracks).1).2 ≠ []) :
    selectBestTrack enableOcr ocrAvail englishTracks =
      (if enableOcr && ocrAvail then (separateByCodec (categorizeTracks englishTracks).1).2.head?
       else selectFromSignsTracks (categorizeTracks englishTracks).2 englishTracks) ∧
    (∀ t : SubtitleTrack, getEnglishTracks [t] = [t] →
      findEnglishTrack enableOcr ocrAvail [t] = some t) := by
  constructor
  · obtain ⟨d1, drest, hdeq⟩ : ∃ d1 drest,
        (categorizeTracks englishTracks).1 = d1 :: drest := by
      rcases h : (categorizeTracks englishTracks).1 with _ | ⟨d1, drest⟩
      · exact absurd h hd
      · exact ⟨d1, drest, rfl⟩
    obtain ⟨i1, irest, himeq⟩ : ∃ i1 irest,
        (separateByCodec (categorizeTracks englishTracks).1).2 = i1 :: irest := by
      rcases h : (separateByCodec (categorizeTracks englishTracks).1).2 with _ | ⟨i1, irest⟩
      · exact absurd h himg
      · exact ⟨i1, irest, rfl⟩
    rw [hdeq] at htext himeq
    cases enableOcr <;> cases ocrAvail <;>
      simp [selectBestTrack, selectFromDialogueTracks, handleImageTracks,
        hdeq, htext, himeq]
  · intro t ht
    unfold findEnglishTrack
    rw [ht]

/-- C7 amended witness: two image-based dialogue candidates with OCR enabled
and available. -/
theorem claim7_amended_witness :
    selectBestTrack true true
        [{ ttype := S ("subtitles"), codec := S ("hdmv_pgs_subtitle"), language := S ("eng"),
           trackName := S ("English Dialogue A"), forced := false },
         { ttype := S ("subtitles"), codec := S ("hdmv_pgs_subtitle"), language := S ("eng"),
           trackName := S ("English Dialogue B"), forced := false }] =
      (if true && true then
        (separateByCodec (categorizeTracks
          [{ ttype := S ("subtitles"), codec := S ("hdmv_pgs_subtitle"), language := S ("eng"),
             trackName := S ("English Dialogue A"), forced := false },
           { ttype := S ("subtitles"), codec := S ("hdmv_pgs_subtitle"), language := S ("eng"),
             trackName := S ("English Dialogue B"), forced := false }]).1).2.head?
       else selectFromSignsTracks (categorizeTracks
          [{ ttype := S ("subtitles"), codec := S ("hdmv_pgs_subtitle"), language := S ("eng"),
             trackName := S ("English Dialogue A"), forced := false },
           { ttype := S ("subtitles"), codec := S ("hdmv_pgs_subtitle"), language := S ("eng"),
             trackName := S ("English Dialogue B"), forced := false }]).2
          [{ ttype := S ("subtitles"), codec := S ("hdmv_pgs_subtitle"), language := S ("eng"),
             trackName := S ("English Dialogue A"), forced := false },
           { ttype := S ("subtitles"), codec := S ("hdmv_pgs_subtitle"), language := S ("eng"),
             trackName := S ("English Dialogue B"), forced := false }]) ∧
    (∀ t : SubtitleTrack, getEnglishTracks [t] = [t] →
      findEnglishTrack true true [t] = some t) :=
  claim7_amended_image_dialogue_fallback true true
    [{ ttype := S ("subtitles"), codec := S ("hdmv_pgs_subtitle"), language := S ("eng"),
       trackName := S ("English Dialogue A"), forced := false },
     { ttype := S ("subtitles"), codec := S ("hdmv_pgs_subtitle"), language := S ("eng"),
       trackName := S ("English Dialogue B"), forced := false }]
    (by decide) (by decide) (by decide)

/-- C8 counterexample.  Postprocessing is not idempotent: on `"a. ."` the
whitespace-before-punctuation removal produces `"a.."`, and a second
application collapses the newly created `".."` run to `"a."`. -/
theorem claim8_counterexample :
    postprocessTranslation (S ("a. .")) = S ("a..") ∧
      postprocessTranslation (postprocessTranslation (S ("a. ."))) = S ("a.") ∧
      postprocessTranslation (postprocessTranslation (S ("a. ."))) ≠
        postprocessTranslation (S ("a. .")) := by
  refine ⟨by decide, by decide, by decide⟩

/-- C8 amended.  Postprocessing is idempotent on every input on which none of
the three cleanup patterns fires (each transform fixes the stripped
input); in general a second application can change the result again,
because removing whitespace before terminal punctuation can create a new
repeated-punctuation run (see the counterexample `"a. ."`). -/
theorem claim8_amended_idempotent_when_no_pattern_fires (s : Str)
    (h1 : removeDialogueMarkers (pyStrip s) = pyStrip s)
    (h2 : removeRepetition (pyStrip s) = pyStrip s)
    (h3 : normalizePunct (pyStrip s) = pyStrip s) :
    postprocessTranslation (postprocessTranslation s) = postprocessTranslation s := by
  have h0 := postprocess_eq_strip s h1 h2 h3
  rw [h0]
  have h0b := postprocess_eq_strip (pyStrip s)
    (by rw [pyStrip_idem]; exact h1)
    (by rw [pyStrip_idem]; exact h2)
    (by rw [pyStrip_idem]; exact h3)
  rw [h0b, pyStrip_idem]

/-- C8 amended witness: `" Dobrze  "` (leading/trailing whitespace, no
cleanup pattern applies to the stripped text). -/
theorem claim8_amended_witness :
    postprocessTranslation (postprocessTranslation (S (" Dobrze  "))) =
      postprocessTranslation (S (" Dobrze  ")) :=
  claim8_amended_idempotent_when_no_pattern_fires (S (" Dobrze  "))
    (by decide) (by decide) (by decide)

/-- C9 counterexample.  `"abc "` matches none of the three cleanup patterns
(each transform leaves it unchanged), yet `postprocess_translation`
returns it **stripped** — `"abc"`, not the input unchanged. -/
theorem claim9_counterexample :
    removeDialogueMarkers (S ("abc ")) = S ("abc ") ∧
      removeRepetition (S ("abc ")) = S ("abc ") ∧
      normalizePunct (S ("abc ")) = S ("abc ") ∧
      postprocessTranslation (S ("abc ")) = S ("abc") ∧
      postprocessTranslation (S ("abc ")) ≠ S ("abc ") := by
  refine ⟨by decide, by decide, by decide, by decide, by decide⟩

/-- C9 amended.  `postprocess_translation` is total (the embedding is a total
function — it never raises); an empty or whitespace-only input returns
the empty string; and every other input on which none of the three
cleanup patterns fires is returned stripped of leading and trailing
whitespace (hence unchanged exactly when it has none). -/
theorem claim9_amended_postprocess_contract (s : Str) :
    (pyStrip s = [] → postprocessTranslation s = []) ∧
    (removeDialogueMarkers (pyStrip s) = pyStrip s →
     removeRepetition (pyStrip s) = pyStrip s →
     normalizePunct (pyStrip s) = pyStrip s →
     postprocessTranslation s = pyStrip s) := by
  constructor
  · intro hs
    unfold postprocessTranslation
    by_cases he : s.isEmpty = true
    · have : s = [] := by simpa using he
      subst this
      rfl
    · rw [if_neg he, if_pos (by rw [hs]; rfl)]
  · intro h1 h2 h3
    exact postprocess_eq_strip s h1 h2 h3

/-- C9 amended witness: the whitespace-only input `"  "` and the pattern-free
input `"abc "`. -/
theorem claim9_amended_witness :
    postprocessTranslation (S ("  ")) = [] ∧
      postprocessTranslation (S ("abc ")) = pyStrip (S ("abc ")) :=
  ⟨(claim9_amended_postprocess_contract (S ("  "))).1 (by decide),
   (claim9_amended_postprocess_contract (S ("abc "))).2 (by decide) (by decide) (by decide)⟩

theorem replacePolishChar_idem (c : Char) :
    replacePolishChar (replacePolishChar c) = replacePolishChar c := by
  rcases h : POLISH_CHAR_PAIRS.lookup c with _ | v
  · have hc : replacePolishChar c = c := by simp [replacePolishChar, h]
    rw [hc, hc]
  · have hc : replacePolishChar c = v := by simp [replacePolishChar, h]
    rw [hc]
    have hv : ∀ p ∈ POLISH_CHAR_PAIRS, replacePolishChar p.2 = p.2 := by decide
    exact hv (c, v) (lookup_mem h)

/-- C10.  The character narrowing applied when writing the Polish subtitle
file (`replace_chars=True`) maps each of the 18 Polish diacritic letters
to its ASCII base letter (per the `maketrans` table) and leaves every
other character unchanged; consequently it preserves string length and is
idempotent. -/
theorem claim10_polish_char_narrowing :
    (∀ s : Str, (replacePolishChars s).length = s.length) ∧
    (∀ s : Str, replacePolishChars (replacePolishChars s) = replacePolishChars s) ∧
    (POLISH_CHAR_PAIRS.length = 18 ∧
      POLISH_CHAR_PAIRS.all (fun p => replacePolishChar p.1 == p.2) = true) ∧
    (∀ c : Char, POLISH_CHAR_PAIRS.lookup c = none → replacePolishChar c = c) := by
  refine ⟨?_, ?_, ⟨by decide, by decide⟩, ?_⟩
  · intro s
    simp [replacePolishChars]
  · intro s
    induction s with
    | nil => rfl
    | cons c rest ih =>
      simp only [replacePolishChars, List.map_cons] at ih ⊢
      rw [replacePolishChar_idem, ih]
  · intro c h
    simp [replacePolishChar, h]

/-- C10 witness: an unmapped character is left unchanged. -/
theorem claim10_witness : replacePolishChar ('x') = 'x' :=
  claim10_polish_char_narrowing.2.2.2 'x' (by decide)
